import Mathlib

/-!
Shallow embedding of the two source files of this repository:
movepick.cpp (the staged move picker of the main search) and
montecarlo.cpp (the UCT / Monte-Carlo tree search engine), together with
theorems settling the specification claims about them.

External collaborators of the core (the board representation, the move
generator, the history tables, the static-exchange evaluator) are modelled
as opaque parameters: a position's capture/quiet move lists arrive already
generated and scored, and the predicates pseudo_legal / capture / see_ge
are supplied as boolean-valued functions.  C++ doubles are modelled as real
numbers, C++ int as ℤ, unsigned counters as ℕ.  C++ integer division
(truncation toward zero) is Int.tdiv; the C++ cast int(double) is modelled
by truncation toward zero of a real.
-/

/-- A chess move (an opaque comparable value in the source, type Move). -/
abbrev Move := ℕ

/-- Sentinel for the absence of a move (MOVE_NONE in the source, value 0). -/
def MOVE_NONE : Move := 0

namespace MP

/-- One entry of the MovePicker's move buffer: a move together with its
mutable signed sort key (struct ExtMove of movepick.h). -/
structure ExtMove where
  move : Move
  value : ℤ
deriving DecidableEq

/-- Insertion of one element into the already descending-sorted region of
partial_insertion_sort.  In the source this is the inner loop
`for (q = sortedEnd; q != begin && *(q - 1) < tmp; --q) *q = *(q - 1); *q = tmp;`:
tmp moves toward the front past strictly smaller elements, so functionally
tmp is placed directly before the first element whose value is strictly
smaller than tmp's (a stable descending insertion). -/
def insert_desc (x : ExtMove) : List ExtMove → List ExtMove
  | [] => [x]
  | y :: ys => if y.value < x.value then x :: y :: ys else y :: insert_desc x ys

/-- One step of partial_insertion_sort's outer loop, acting on the pair
(sorted region `[begin, sortedEnd]`, rejected region `(sortedEnd, p)`).
If the scanned element qualifies (`p->value >= limit`), the source executes
`*p = *++sortedEnd` — the first rejected element is moved to position p,
i.e. the rejected region is rotated left by one — and then inserts the
element into the sorted region.  Otherwise the element joins the rejected
region. -/
def pisStep (limit : ℤ) (st : List ExtMove × List ExtMove) (x : ExtMove) :
    List ExtMove × List ExtMove :=
  if limit ≤ x.value then
    match st.2 with
    | [] => (insert_desc x st.1, [])
    | r :: rs => (insert_desc x st.1, rs ++ [r])
  else (st.1, st.2 ++ [x])

/-- Embedding of partial_insertion_sort(begin, end, limit) of movepick.cpp
(lines 36-47).  The element at `begin` starts inside the sorted region and
is never tested against the limit; the scan starts at `begin + 1`.  The
final buffer is the sorted region followed by the rejected region. -/
def partial_insertion_sort (l : List ExtMove) (limit : ℤ) : List ExtMove :=
  match l with
  | [] => []
  | a :: rest =>
    let st := rest.foldl (pisStep limit) ([a], [])
    st.1 ++ st.2

/-- Index of the first maximum-valued element of a buffer, as computed by
std::max_element with the ExtMove comparison `f.value < s.value` (a later
element replaces the current maximum only when strictly greater). -/
def firstMaxIdx : List ExtMove → ℕ
  | [] => 0
  | [_] => 0
  | x :: y :: xs =>
    if x.value < ((y :: xs).getD (firstMaxIdx (y :: xs)) x).value then
      firstMaxIdx (y :: xs) + 1
    else 0

/-- One extraction of select_move<BEST_SCORE>: `std::swap(*cur, *std::max_element
(cur, endMoves)); move = *cur++;`.  The first maximal element is swapped to
the front and consumed; the remaining buffer is the swapped list's tail. -/
def pickMax (l : List ExtMove) : Option (ExtMove × List ExtMove) :=
  match l with
  | [] => none
  | x :: xs =>
    some (((x :: xs).getD (firstMaxIdx (x :: xs)) x),
      ((x :: xs).set (firstMaxIdx (x :: xs)) x).tail)

/-- Per-capture static-exchange threshold of the good-capture stage:
`Value(-55 * (cur-1)->value / 1024)` with C++ division truncating toward
zero. -/
def seeThreshold (v : ℤ) : ℤ := Int.tdiv (-55 * v) 1024

/-- The static-exchange check a capture must pass to be yielded in the
good-capture stage: `pos.see_ge(move, Value(-55 * (cur-1)->value / 1024))`. -/
def seeOk (see : Move → ℤ → Bool) (m : ExtMove) : Bool :=
  see m.move (seeThreshold m.value)

/-- The GOOD_CAPTURE stage of next_move run to exhaustion (lines 174-184 of
movepick.cpp): repeatedly extract the remaining best-scored capture; skip it
if it equals the hash move; yield it if the static-exchange check against
its score-scaled threshold passes; otherwise defer it to the bad-capture
buffer (`*endBadCaptures++ = move` stores only the move).  Returns
(yielded good captures, deferred bad-capture buffer), each in extraction
order.  The fuel argument is the buffer length; every extraction shortens
the buffer by one. -/
def good_capture_loop (see : Move → ℤ → Bool) (tt : Move) :
    ℕ → List ExtMove → List Move × List Move
  | 0, _ => ([], [])
  | fuel + 1, rem =>
    match pickMax rem with
    | none => ([], [])
    | some (m, rest) =>
      let r := good_capture_loop see tt fuel rest
      if m.move = tt then r
      else if seeOk see m then (m.move :: r.1, r.2)
      else (r.1, m.move :: r.2)

/-- Inputs of the main-search MovePicker constructor (movepick.cpp lines
59-69) together with the external services it consults.  The generated and
scored capture and quiet buffers stand for generate<CAPTURES>/score<CAPTURES>
and generate<QUIETS>/score<QUIETS> applied to the position (the generator
and history tables are external collaborators).  depth is measured in plies
(ONE_PLY = 1).  The model covers the main-search branch, i.e. positions
that are not in check. -/
structure MPInput where
  ttm : Move
  pseudo_legal : Move → Bool
  capture : Move → Bool
  see_ge : Move → ℤ → Bool
  captures : List ExtMove
  quiets : List ExtMove
  killer0 : Move
  killer1 : Move
  countermove : Move
  depth : ℤ

/-- The constructor's hash move filtering:
`ttMove = ttm && pos.pseudo_legal(ttm) ? ttm : MOVE_NONE`. -/
def ttMove (p : MPInput) : Move :=
  if p.ttm ≠ MOVE_NONE ∧ p.pseudo_legal p.ttm = true then p.ttm else MOVE_NONE

/-- The moves yielded by one full run of the main-search picker, bucketed by
the stage that yielded them, each bucket in yield order. -/
structure PickerRun where
  ttYield : List Move
  goodYield : List Move
  killerYield : List Move
  counterYield : List Move
  quietYield : List Move
  badYield : List Move

/-- A main-search MovePicker run to exhaustion (next_move called until it
returns MOVE_NONE), with the skip-quiets flag held fixed across calls.
Each field mirrors one case block of the switch in next_move:
MAIN_TT yields the hash move once when it is non-none (lines 154-161, and
the constructor's `stage += (ttMove == MOVE_NONE)`);
CAPTURE_INIT/GOOD_CAPTURE drive good_capture_loop over the scored capture
buffer (lines 163-184);
KILLER0/KILLER1 yield each killer iff it is non-none, differs from the hash
move, is pseudo-legal and is not a capture (lines 186-199);
COUNTERMOVE yields the counter move under the same conditions plus
distinctness from both killers (lines 201-213);
QUIET_INIT scores the quiets and partially sorts them with limit
`-4000 * depth / ONE_PLY`, and QUIET yields them in buffer order excluding
the hash, killer and counter moves, unless skipQuiets (lines 215-237);
BAD_CAPTURE finally yields the deferred bad captures in original order,
excluding the hash move (lines 239-243). -/
def run_picker (p : MPInput) (skipQuiets : Bool) : PickerRun :=
  let tt := ttMove p
  let g := good_capture_loop p.see_ge tt p.captures.length p.captures
  let k0ok := p.killer0 ≠ MOVE_NONE ∧ p.killer0 ≠ tt ∧
      p.pseudo_legal p.killer0 = true ∧ p.capture p.killer0 = false
  let k1ok := p.killer1 ≠ MOVE_NONE ∧ p.killer1 ≠ tt ∧
      p.pseudo_legal p.killer1 = true ∧ p.capture p.killer1 = false
  let cmok := p.countermove ≠ MOVE_NONE ∧ p.countermove ≠ tt ∧
      p.countermove ≠ p.killer0 ∧ p.countermove ≠ p.killer1 ∧
      p.pseudo_legal p.countermove = true ∧ p.capture p.countermove = false
  let sortedQuiets := partial_insertion_sort p.quiets (-4000 * p.depth)
  { ttYield := if tt ≠ MOVE_NONE then [tt] else []
    goodYield := g.1
    killerYield := (if k0ok then [p.killer0] else []) ++
      (if k1ok then [p.killer1] else [])
    counterYield := if cmok then [p.countermove] else []
    quietYield :=
      if skipQuiets then []
      else (sortedQuiets.map (·.move)).filter
        (fun m => decide (m ≠ tt ∧ m ≠ p.killer0 ∧ m ≠ p.killer1 ∧ m ≠ p.countermove))
    badYield := g.2.filter (fun m => decide (m ≠ tt)) }

/-- The full yield sequence of a run, in stage order. -/
def trace (r : PickerRun) : List Move :=
  r.ttYield ++ r.goodYield ++ r.killerYield ++ r.counterYield ++
    r.quietYield ++ r.badYield

/-- The descending-by-value ordering maintained on the sorted region. -/
def descBy (a b : ExtMove) : Prop := b.value ≤ a.value

/-- Claim C4, counterexample to the claim as stated: when the hash move is
itself one of the generated captures, the good-capture stage skips it
without deferring it (the filter's short-circuit `move != ttMove` fires
before the bad-capture push), so it lands in neither bucket and the two
buckets together do not cover the generated capture set. -/
def captureLossInput : MPInput :=
  { ttm := 5
    pseudo_legal := fun _ => true
    capture := fun _ => true
    see_ge := fun _ _ => true
    captures := [⟨5, 10⟩]
    quiets := []
    killer0 := 0
    killer1 := 0
    countermove := 0
    depth := 1 }

/-- A picker constructed with the same non-none quiet move in both killer
slots (nothing in the constructor forbids this). -/
def killerDupInput : MPInput :=
  { ttm := 0
    pseudo_legal := fun _ => true
    capture := fun _ => false
    see_ge := fun _ _ => true
    captures := []
    quiets := []
    killer0 := 5
    killer1 := 5
    countermove := 0
    depth := 1 }

/-- A well-formed concrete picker input: distinct killers, a counter move,
one genuine capture and one quiet. -/
def stagedOkInput : MPInput :=
  { ttm := 0
    pseudo_legal := fun _ => true
    capture := fun m => decide (m = 3)
    see_ge := fun _ _ => true
    captures := [⟨3, 10⟩]
    quiets := [⟨4, 0⟩]
    killer0 := 5
    killer1 := 6
    countermove := 7
    depth := 1 }


end MP

namespace UCT

/-- One outgoing edge of a search-tree node (struct Edge of the missing
montecarlo header; its five fields are exactly the ones assigned by
add_prior_to_node and read by UCB/backup in montecarlo.cpp). -/
structure Edge where
  visits : ℕ
  move : Move
  prior : ℝ
  actionValue : ℝ
  meanActionValue : ℝ

/-- A search-tree node as used by montecarlo.cpp: the two-part fingerprint,
the visit counters, the bookkeeping move, and the fixed-capacity edge array
(modelled as a total function; capacity is enforced by add_prior_to_node's
guard). -/
structure NodeData where
  key1 : ℕ
  key2 : ℕ
  visits : ℕ
  sons : ℕ
  expandedSons : ℕ
  lastMove : Move
  edges : ℕ → Edge

/-- Embedding of get_node (montecarlo.cpp lines 353-374).  Modelled from the
spec: the UCTHashTable type and its operator[] are not under src/; per the
spec the table is a fixed-size array of M slots and a key addresses slot
`key mod M`.  The rest follows the source: if both stored fingerprint parts
match, the slot is returned unchanged; otherwise that same slot is
re-initialized in place (keys set, visits/sons/expandedSons zeroed,
lastMove set to MOVE_NONE, other contents untouched) and returned.  The
mutation of the slot is modelled by returning the updated table. -/
def get_node (M : ℕ) (tbl : ℕ → NodeData) (key1 key2 : ℕ) :
    NodeData × (ℕ → NodeData) :=
  let node := tbl (key1 % M)
  if node.key1 = key1 ∧ node.key2 = key2 then (node, tbl)
  else
    let node' : NodeData :=
      { node with key1 := key1, key2 := key2, visits := 0, sons := 0,
                  expandedSons := 0, lastMove := MOVE_NONE }
    (node', fun i => if i = key1 % M then node' else tbl i)

/-- Embedding of UCT::add_prior_to_node (montecarlo.cpp lines 606-631).  The
capacity constant MAX_EDGES lives in the missing montecarlo header, so it is
passed as a parameter.  When the node is full the source only prints an
error and changes nothing. -/
def add_prior_to_node (MAX_EDGES : ℕ) (node : NodeData) (m : Move) (prior : ℝ) :
    NodeData :=
  if node.sons < MAX_EDGES then
    { node with
        edges := fun i =>
          if i = node.sons then
            { visits := 0, move := m, prior := prior,
              actionValue := 0, meanActionValue := 0 }
          else node.edges i,
        sons := node.sons + 1 }
  else node

/-- The edge list scanned by best_move: `get_list_of_edges(node)` indexed by
`k = 0 .. number_of_sons(node) - 1` where `number_of_sons(node) = node->sons`. -/
def edges_list (node : NodeData) : List Edge :=
  (List.range node.sons).map node.edges

/-- Embedding of UCT::UCB (montecarlo.cpp lines 501-515): exploitation term
`actionValue / visits` (0 when the edge is unvisited) plus exploration term
`C * prior * sqrt(fatherVisits) / (1 + visits)`. -/
noncomputable def UCB (node : NodeData) (edge : Edge) (C : ℝ) : ℝ :=
  (if edge.visits ≠ 0 then edge.actionValue / edge.visits else 0) +
    C * edge.prior * Real.sqrt node.visits / (1 + edge.visits)

/-- The scan of UCT::best_move (montecarlo.cpp lines 543-552): running best
starts at MOVE_NONE with value -100000000.0 and is replaced only on a
strictly greater UCB (`if (r > bestValue)`). -/
noncomputable def best_move_loop (node : NodeData) (C : ℝ) :
    List Edge → Move → ℝ → Move
  | [], best, _ => best
  | e :: es, best, bestValue =>
    if bestValue < UCB node e C then best_move_loop node C es e.move (UCB node e C)
    else best_move_loop node C es best bestValue

/-- Embedding of UCT::best_move (montecarlo.cpp lines 527-560), without the
debug printing. -/
noncomputable def best_move (node : NodeData) (C : ℝ) : Move :=
  best_move_loop node C (edges_list node) MOVE_NONE (-100000000)

/-- The per-search mutable context of the UCT engine that the claims about
the search loop inspect: the ply counter, the currentMove entries of the
search stack (most recent first), and the live position represented by the
move path from the root position (pos.do_move appends, pos.undo_move drops
the last move; the root position itself is an opaque external object). -/
structure SState where
  ply : ℕ
  stackMoves : List Move
  path : List Move
deriving DecidableEq

/-- Embedding of UCT::do_move (montecarlo.cpp lines 585-596): records the
current move in the stack frame, advances the live position and increments
ply.  The contHistory pointer bookkeeping has no observable effect on the
claims and is omitted. -/
def do_move (st : SState) (m : Move) : SState :=
  { ply := st.ply + 1, stackMoves := m :: st.stackMoves, path := st.path ++ [m] }

/-- Embedding of UCT::undo_move (montecarlo.cpp lines 600-603): decrements
ply and retracts the move recorded in the popped stack frame. -/
def undo_move (st : SState) : SState :=
  { ply := st.ply - 1, stackMoves := st.stackMoves.tail, path := st.path.dropLast }

/-- Embedding of UCT::backup (montecarlo.cpp lines 519-523).  The body of
the source function is empty apart from an assertion: it mutates neither
the search state nor the node table nor any edge statistic, and performs no
retract.  It is passed the expanded node and the playout reward and ignores
both. -/
def backup (st : SState) (tbl : ℕ → NodeData) (_node : NodeData) (_r : ℝ) :
    SState × (ℕ → NodeData) :=
  (st, tbl)

/-- Embedding of UCT::tree_policy (montecarlo.cpp lines 450-472): while the
current node is expanded (visits > 0), advance the position by the selected
move and look up the node of the resulting position.  The node table lookup
`get_node(pos)` and the UCB selection `best_move(current_node(), C)` depend
on the table state, which this state type does not carry; they are
abstracted as the functions visits and pick of the current position's move
path.  The while loop is given fuel; MAX_PLY bounds the descent in the
source via the stack size. -/
def tree_policy (visits : List Move → ℕ) (pick : List Move → Move) :
    ℕ → SState → SState
  | 0, st => st
  | fuel + 1, st =>
    if 0 < visits st.path then
      tree_policy visits pick fuel (do_move st (pick st.path))
    else st

/-- State effect of UCT::calculate_prior (montecarlo.cpp lines 711-723) on
the search state: do_move, evaluate (no state effect), undo_move. -/
def calculate_prior_state (st : SState) (m : Move) : SState :=
  undo_move (do_move st m)

/-- State effect of UCT::playout_policy / UCT::generate_moves on the search
state: for each legal move produced by the move picker, calculate_prior
advances and retracts the position; nothing else touches ply or the
position. -/
def playout_policy_state (legalMoves : List Move) (st : SState) : SState :=
  legalMoves.foldl calculate_prior_state st

/-- One iteration of the body of UCT::search (montecarlo.cpp lines 386-391):
selection by tree_policy, expansion/evaluation by playout_policy (whose
reward is the first edge's prior), then backup of that reward. -/
def search_iteration (visitsf : List Move → ℕ) (pick : List Move → Move)
    (nodeOf : List Move → NodeData) (legalMoves : List Move)
    (tbl : ℕ → NodeData) (fuel : ℕ) (st : SState) : SState × (ℕ → NodeData) :=
  let st1 := tree_policy visitsf pick fuel st
  let st2 := playout_policy_state legalMoves st1
  backup st2 tbl (nodeOf st2.path) ((nodeOf st2.path).edges 0).prior

/-- Scaling constant of the value/reward logistic transform (the local
constant k of UCT::value_to_reward, montecarlo.cpp line 731). -/
noncomputable def k : ℝ := -0.00183102048111

/-- The constant of UCT::reward_to_value (montecarlo.cpp line 744).  The
source comment calls it `1 / k`; its actual value is -1/k up to rounding,
as proved below. -/
noncomputable def g : ℝ := 546.14353597715121

/-- Modelled from the spec: the known win/loss sentinel value
(VALUE_KNOWN_WIN of the missing types.h; the claims depend only on it being
a fixed sentinel). -/
def VALUE_KNOWN_WIN : ℤ := 10000

/-- The C++ cast int(double): truncation toward zero. -/
noncomputable def truncInt (x : ℝ) : ℤ := if 0 ≤ x then ⌊x⌋ else ⌈x⌉

/-- Embedding of UCT::value_to_reward (montecarlo.cpp lines 729-734):
`1.0 / (1 + exp(k * int(v)))`. -/
noncomputable def value_to_reward (v : ℤ) : ℝ :=
  1 / (1 + Real.exp (k * v))

/-- Embedding of UCT::reward_to_value (montecarlo.cpp lines 739-747):
sentinel clamping outside [0.01, 0.99], otherwise `Value(int(g * log(r / (1 - r))))`. -/
noncomputable def reward_to_value (r : ℝ) : ℤ :=
  if 0.99 < r then VALUE_KNOWN_WIN
  else if r < 0.01 then -VALUE_KNOWN_WIN
  else truncInt (g * Real.log (r / (1 - r)))

/-- The formula claim C6 states for reward_to_value, written from the
claim's words (`(1/k) * ln(r / (1 - r))` with the same clamping), for
comparison with the embedding of the source. -/
noncomputable def reward_to_value_claimed (r : ℝ) : ℤ :=
  if 0.99 < r then VALUE_KNOWN_WIN
  else if r < 0.01 then -VALUE_KNOWN_WIN
  else truncInt ((1 / k) * Real.log (r / (1 - r)))

/-- A concrete edge for the demonstration instances below. -/
def demoEdge : Edge :=
  { visits := 0, move := 0, prior := 0, actionValue := 0, meanActionValue := 0 }

/-- A concrete expanded-but-statistics-free node. -/
def demoNode : NodeData :=
  { key1 := 0, key2 := 0, visits := 1, sons := 1, expandedSons := 0,
    lastMove := MOVE_NONE, edges := fun _ => demoEdge }

/-- A concrete node table whose every slot is demoNode. -/
def demoTbl : ℕ → NodeData := fun _ => demoNode

/-- Node-visit oracle of a tree whose root (empty path) is expanded with one
unexpanded child: exactly the situation after create_root has expanded the
root. -/
def demoVisits : List Move → ℕ := fun p => if p = [] then 1 else 0

/-- Selection oracle: best_move returns move 7 at every node of the
demonstration tree. -/
def demoPick : List Move → Move := fun _ => 7

/-- Node lookup oracle for the demonstration tree. -/
def demoNodeOf : List Move → NodeData := fun _ => demoNode

/-- The search state right after create_root: ply = 1, empty stack, live
position equal to the root position. -/
def st0 : SState := { ply := 1, stackMoves := [], path := [] }

/-- A concrete expanded node with two visited edges, the first with the
strictly larger exploitation term. -/
noncomputable def ucbDemoNode : NodeData :=
  { key1 := 0, key2 := 0, visits := 1, sons := 2, expandedSons := 0, lastMove := 0,
    edges := fun i =>
      if i = 0 then
        { visits := 1, move := 11, prior := 1/2, actionValue := 1, meanActionValue := 1 }
      else
        { visits := 1, move := 22, prior := 1/2, actionValue := 0, meanActionValue := 0 } }


end UCT

namespace MP

theorem insert_desc_perm (x : ExtMove) : ∀ l : List ExtMove, (insert_desc x l).Perm (x :: l)
  | [] => List.Perm.refl _
  | y :: ys => by
    unfold insert_desc
    by_cases h : y.value < x.value
    · simp [h]
    · simp only [h, if_false]
      exact ((insert_desc_perm x ys).cons y).trans (List.Perm.swap x y ys)

theorem insert_desc_pairwise (x : ExtMove) :
    ∀ {l : List ExtMove}, l.Pairwise descBy → (insert_desc x l).Pairwise descBy
  | [], _ => List.pairwise_singleton _ _
  | y :: ys, hl => by
    rw [List.pairwise_cons] at hl
    unfold insert_desc
    by_cases h : y.value < x.value
    · simp only [h, if_true]
      rw [List.pairwise_cons]
      refine ⟨?_, List.pairwise_cons.mpr hl⟩
      intro e he
      rcases List.mem_cons.mp he with rfl | he
      · exact le_of_lt h
      · exact le_trans (hl.1 e he) (le_of_lt h)
    · simp only [h, if_false]
      rw [List.pairwise_cons]
      refine ⟨?_, insert_desc_pairwise x hl.2⟩
      intro e he
      rcases List.mem_cons.mp ((insert_desc_perm x ys).mem_iff.mp he) with rfl | he
      · exact not_lt.mp h
      · exact hl.1 e he

theorem pis_foldl_spec (limit : ℤ) :
    ∀ (rest s r : List ExtMove),
      s.Pairwise descBy → (∀ e ∈ r, e.value < limit) →
      ((rest.foldl (pisStep limit) (s, r)).1.Pairwise descBy
        ∧ (∀ e ∈ (rest.foldl (pisStep limit) (s, r)).2, e.value < limit)
        ∧ ((rest.foldl (pisStep limit) (s, r)).1 ++
            (rest.foldl (pisStep limit) (s, r)).2).Perm ((s ++ r) ++ rest))
  | [], s, r, hs, hr => by
    refine ⟨hs, hr, ?_⟩
    simp
  | x :: rest, s, r, hs, hr => by
    rw [List.foldl_cons]
    by_cases hx : limit ≤ x.value
    · cases r with
      | nil =>
        have step : pisStep limit (s, []) x = (insert_desc x s, []) := by
          simp [pisStep, hx]
        rw [step]
        obtain ⟨h1, h2, h3⟩ :=
          pis_foldl_spec limit rest (insert_desc x s) [] (insert_desc_pairwise x hs)
            (by simp)
        refine ⟨h1, h2, h3.trans ?_⟩
        have e1 : (insert_desc x s ++ [] : List ExtMove) ++ rest = insert_desc x s ++ rest := by
          simp
        rw [e1]
        have p1 : (insert_desc x s ++ rest).Perm ((x :: s) ++ rest) :=
          (insert_desc_perm x s).append_right rest
        refine p1.trans ?_
        have p2 : ((s ++ []) ++ x :: rest).Perm (x :: (s ++ rest)) := by
          simp only [List.append_nil]
          exact @List.perm_middle ExtMove x s rest
        exact p2.symm
      | cons r1 rs =>
        have step : pisStep limit (s, r1 :: rs) x = (insert_desc x s, rs ++ [r1]) := by
          simp [pisStep, hx]
        rw [step]
        have hr' : ∀ e ∈ rs ++ [r1], e.value < limit := by
          intro e he
          rcases List.mem_append.mp he with he | he
          · exact hr e (List.mem_cons_of_mem r1 he)
          · rcases List.mem_singleton.mp he with rfl
            exact hr e (List.mem_cons_self _ _)
        obtain ⟨h1, h2, h3⟩ :=
          pis_foldl_spec limit rest (insert_desc x s) (rs ++ [r1])
            (insert_desc_pairwise x hs) hr'
        refine ⟨h1, h2, h3.trans ?_⟩
        have p1 : ((insert_desc x s ++ (rs ++ [r1])) ++ rest).Perm
            (((x :: s) ++ (rs ++ [r1])) ++ rest) :=
          ((insert_desc_perm x s).append_right _).append_right rest
        refine p1.trans ?_
        have p2 : (((x :: s) ++ (rs ++ [r1])) ++ rest).Perm
            (((x :: s) ++ (r1 :: rs)) ++ rest) :=
          ((List.Perm.append_left (x :: s) (List.perm_append_singleton r1 rs)).append_right rest)
        refine p2.trans ?_
        have e2 : ((x :: s) ++ (r1 :: rs)) ++ rest = x :: ((s ++ r1 :: rs) ++ rest) := by
          simp
        rw [e2]
        exact (@List.perm_middle ExtMove x (s ++ r1 :: rs) rest).symm
    · have step : pisStep limit (s, r) x = (s, r ++ [x]) := by
        simp [pisStep, hx]
      rw [step]
      have hr' : ∀ e ∈ r ++ [x], e.value < limit := by
        intro e he
        rcases List.mem_append.mp he with he | he
        · exact hr e he
        · rcases List.mem_singleton.mp he with rfl
          exact not_le.mp hx
      obtain ⟨h1, h2, h3⟩ := pis_foldl_spec limit rest s (r ++ [x]) hs hr'
      refine ⟨h1, h2, h3.trans ?_⟩
      have e3 : (s ++ (r ++ [x])) ++ rest = (s ++ r) ++ (x :: rest) := by
        simp
      rw [e3]

/-- Claim C5, counterexample to the claim as stated: on the buffer
[(move 1, score 5), (move 2, score 5)] with cutoff 0 both scores are at or
above the cutoff, yet the output keeps them in original order with equal
scores, which is not strictly descending. -/
theorem partial_sort_strict_counterexample :
    partial_insertion_sort [⟨1, 5⟩, ⟨2, 5⟩] 0 = [⟨1, 5⟩, ⟨2, 5⟩]
    ∧ ¬ (partial_insertion_sort [⟨1, 5⟩, ⟨2, 5⟩] 0).Pairwise
        (fun a b => 0 ≤ a.value → 0 ≤ b.value → b.value < a.value) := by
  constructor
  · rfl
  · decide

/-- Claim C5 (amended: strictly descending weakened to descending, i.e.
non-increasing, since the sort is stable and keeps equal scores in original
order): after partial_insertion_sort the buffer is a permutation of the
input, and any two actions whose scores are both at or above the limit
appear in non-increasing score order relative to each other. -/
theorem partial_sort_amended (l : List ExtMove) (limit : ℤ) :
    (partial_insertion_sort l limit).Perm l
    ∧ (partial_insertion_sort l limit).Pairwise
        (fun a b => limit ≤ a.value → limit ≤ b.value → b.value ≤ a.value) := by
  cases l with
  | nil =>
    constructor
    · rfl
    · simp [partial_insertion_sort]
  | cons a rest =>
    obtain ⟨h1, h2, h3⟩ := pis_foldl_spec limit rest [a] [] (List.pairwise_singleton _ _)
      (by simp)
    unfold partial_insertion_sort
    constructor
    · exact h3.trans (by simp)
    · rw [List.pairwise_append]
      refine ⟨h1.imp ?_, ?_, ?_⟩
      · intro p q h _ _
        exact h
      · refine List.pairwise_of_forall_mem_list ?_
        intro p hp q _ hlim
        exact absurd hlim (not_le.mpr (h2 p hp))
      · intro p _ q hq _ hlim
        exact absurd hlim (not_le.mpr (h2 q hq))

end MP

namespace MP

theorem firstMaxIdx_lt : ∀ (x : ExtMove) (xs : List ExtMove),
    firstMaxIdx (x :: xs) < (x :: xs).length
  | _, [] => by simp [firstMaxIdx]
  | x, y :: ys => by
    have ih := firstMaxIdx_lt y ys
    by_cases h : x.value < ((y :: ys).getD (firstMaxIdx (y :: ys)) x).value
    · rw [firstMaxIdx, if_pos h]
      simpa using Nat.succ_lt_succ ih
    · rw [firstMaxIdx, if_neg h]
      simp

theorem pickMax_perm {l : List ExtMove} {m : ExtMove} {rest : List ExtMove}
    (h : pickMax l = some (m, rest)) : (m :: rest).Perm l := by
  cases l with
  | nil => simp [pickMax] at h
  | cons x xs =>
    rw [pickMax] at h
    have hjlt : firstMaxIdx (x :: xs) < (x :: xs).length := firstMaxIdx_lt x xs
    have hpair := Option.some.inj h
    have hm : ((x :: xs).getD (firstMaxIdx (x :: xs)) x) = m := congrArg Prod.fst hpair
    have hrest : ((x :: xs).set (firstMaxIdx (x :: xs)) x).tail = rest :=
      congrArg Prod.snd hpair
    subst hm
    subst hrest
    cases hj : firstMaxIdx (x :: xs) with
    | zero => simp
    | succ i =>
      rw [hj] at hjlt
      have hi : i < xs.length := by simpa using hjlt
      have hgd : (x :: xs).getD (i + 1) x = xs[i] := by
        rw [List.getD_cons_succ, List.getD_eq_getElem xs x hi]
      have hset : ((x :: xs).set (i + 1) x).tail = xs.set i x := by
        rfl
      rw [hgd, hset, List.set_eq_take_append_cons_drop, if_pos hi]
      have hxs : xs.take i ++ xs[i] :: xs.drop (i + 1) = xs := by
        rw [List.getElem_cons_drop xs i hi, List.take_append_drop]
      have step1 : (xs[i] :: (xs.take i ++ x :: xs.drop (i + 1))).Perm
          (xs[i] :: (x :: (xs.take i ++ xs.drop (i + 1)))) :=
        List.Perm.cons _ List.perm_middle
      have step2 : (xs[i] :: (x :: (xs.take i ++ xs.drop (i + 1)))).Perm
          (x :: (xs[i] :: (xs.take i ++ xs.drop (i + 1)))) :=
        List.Perm.swap x (xs[i]) _
      have step3 : (x :: (xs[i] :: (xs.take i ++ xs.drop (i + 1)))).Perm
          (x :: (xs.take i ++ xs[i] :: xs.drop (i + 1))) :=
        List.Perm.cons x List.perm_middle.symm
      have final := (step1.trans step2).trans step3
      rw [hxs] at final
      exact final

end MP

namespace MP

theorem pickMax_none {l : List ExtMove} (h : pickMax l = none) : l = [] := by
  cases l with
  | nil => rfl
  | cons x xs => simp [pickMax] at h

theorem good_capture_loop_eq_some {see : Move → ℤ → Bool} {tt : Move}
    {fuel : ℕ} {rem : List ExtMove} {m : ExtMove} {rest : List ExtMove}
    (h : pickMax rem = some (m, rest)) :
    good_capture_loop see tt (fuel + 1) rem =
      if m.move = tt then good_capture_loop see tt fuel rest
      else if seeOk see m then
        (m.move :: (good_capture_loop see tt fuel rest).1,
          (good_capture_loop see tt fuel rest).2)
      else ((good_capture_loop see tt fuel rest).1,
        m.move :: (good_capture_loop see tt fuel rest).2) := by
  rw [good_capture_loop, h]

theorem good_capture_loop_spec (see : Move → ℤ → Bool) (tt : Move) :
    ∀ (fuel : ℕ) (rem : List ExtMove), rem.length ≤ fuel →
      ((good_capture_loop see tt fuel rem).1).Perm
        ((rem.filter fun e => decide (e.move ≠ tt) && seeOk see e).map (·.move))
      ∧ ((good_capture_loop see tt fuel rem).2).Perm
        ((rem.filter fun e => decide (e.move ≠ tt) && !seeOk see e).map (·.move))
  | 0, rem, h => by
    have hnil : rem = [] := List.length_eq_zero.mp (Nat.le_zero.mp h)
    subst hnil
    simp [good_capture_loop]
  | fuel + 1, rem, h => by
    cases hrem : pickMax rem with
    | none =>
      have hnil := pickMax_none hrem
      subst hnil
      simp [good_capture_loop, pickMax]
    | some pr =>
      obtain ⟨m, rest⟩ := pr
      have hperm := pickMax_perm hrem
      have hlen : rest.length ≤ fuel := by
        have hl := hperm.length_eq
        simp only [List.length_cons] at hl
        omega
      obtain ⟨ih1, ih2⟩ := good_capture_loop_spec see tt fuel rest hlen
      have pg : ((rem.filter fun e => decide (e.move ≠ tt) && seeOk see e).map
            (fun e => e.move)).Perm
          (((m :: rest).filter fun e => decide (e.move ≠ tt) && seeOk see e).map
            (fun e => e.move)) :=
        (hperm.symm.filter _).map _
      have pb : ((rem.filter fun e => decide (e.move ≠ tt) && !seeOk see e).map
            (fun e => e.move)).Perm
          (((m :: rest).filter fun e => decide (e.move ≠ tt) && !seeOk see e).map
            (fun e => e.move)) :=
        (hperm.symm.filter _).map _
      rw [good_capture_loop_eq_some hrem]
      by_cases hmt : m.move = tt
      · have hgf : ((m :: rest).filter fun e => decide (e.move ≠ tt) && seeOk see e)
            = rest.filter fun e => decide (e.move ≠ tt) && seeOk see e := by
          rw [List.filter_cons, if_neg (by simp [hmt])]
        have hbf : ((m :: rest).filter fun e => decide (e.move ≠ tt) && !seeOk see e)
            = rest.filter fun e => decide (e.move ≠ tt) && !seeOk see e := by
          rw [List.filter_cons, if_neg (by simp [hmt])]
        rw [if_pos hmt]
        exact ⟨ih1.trans ((pg.trans (by rw [hgf])).symm),
               ih2.trans ((pb.trans (by rw [hbf])).symm)⟩
      · by_cases hsee : seeOk see m = true
        · have hgf : ((m :: rest).filter fun e => decide (e.move ≠ tt) && seeOk see e)
              = m :: (rest.filter fun e => decide (e.move ≠ tt) && seeOk see e) := by
            rw [List.filter_cons, if_pos (by simp [hmt, hsee])]
          have hbf : ((m :: rest).filter fun e => decide (e.move ≠ tt) && !seeOk see e)
              = rest.filter fun e => decide (e.move ≠ tt) && !seeOk see e := by
            rw [List.filter_cons, if_neg (by simp [hmt, hsee])]
          rw [if_neg hmt, if_pos hsee]
          constructor
          · refine (ih1.cons m.move).trans ?_
            have e : (((m :: rest).filter fun e => decide (e.move ≠ tt) && seeOk see e).map
                  (fun x => x.move))
                = m.move :: ((rest.filter fun e => decide (e.move ≠ tt) && seeOk see e).map
                  (fun x => x.move)) := by
              rw [hgf, List.map_cons]
            rw [← e]
            exact pg.symm
          · exact ih2.trans ((pb.trans (by rw [hbf])).symm)
        · have hgf : ((m :: rest).filter fun e => decide (e.move ≠ tt) && seeOk see e)
              = rest.filter fun e => decide (e.move ≠ tt) && seeOk see e := by
            rw [List.filter_cons, if_neg (by simp [hmt, hsee])]
          have hbf : ((m :: rest).filter fun e => decide (e.move ≠ tt) && !seeOk see e)
              = m :: (rest.filter fun e => decide (e.move ≠ tt) && !seeOk see e) := by
            rw [List.filter_cons, if_pos (by simp [hmt, hsee])]
          rw [if_neg hmt, if_neg hsee]
          constructor
          · exact ih1.trans ((pg.trans (by rw [hgf])).symm)
          · refine (ih2.cons m.move).trans ?_
            have e : (((m :: rest).filter fun e => decide (e.move ≠ tt) && !seeOk see e).map
                  (fun x => x.move))
                = m.move :: ((rest.filter fun e => decide (e.move ≠ tt) && !seeOk see e).map
                  (fun x => x.move)) := by
              rw [hbf, List.map_cons]
            rw [← e]
            exact pb.symm

end MP

namespace MP

theorem filter_split_perm {α : Type} (P Q : α → Bool) :
    ∀ l : List α,
      (l.filter (fun a => P a && Q a) ++ l.filter (fun a => P a && !Q a)).Perm (l.filter P)
  | [] => by simp
  | x :: l => by
    by_cases hP : P x = true
    · by_cases hQ : Q x = true
      · rw [List.filter_cons, List.filter_cons, List.filter_cons,
          if_pos (by simp [hP, hQ]), if_neg (by simp [hP, hQ]), if_pos hP]
        exact (filter_split_perm P Q l).cons x
      · rw [List.filter_cons, List.filter_cons, List.filter_cons,
          if_neg (by simp [hP, hQ]), if_pos (by simp [hP, hQ]), if_pos hP]
        exact List.perm_middle.trans ((filter_split_perm P Q l).cons x)
    · rw [List.filter_cons, List.filter_cons, List.filter_cons,
        if_neg (by simp [hP]), if_neg (by simp [hP]), if_neg hP]
      exact filter_split_perm P Q l

theorem run_picker_goodYield (p : MPInput) (skipQuiets : Bool) :
    (run_picker p skipQuiets).goodYield
      = (good_capture_loop p.see_ge (ttMove p) p.captures.length p.captures).1 := rfl

theorem run_picker_badYield (p : MPInput) (skipQuiets : Bool) :
    (run_picker p skipQuiets).badYield
      = (good_capture_loop p.see_ge (ttMove p) p.captures.length p.captures).2.filter
          (fun m => decide (m ≠ ttMove p)) := rfl

theorem good_captures_perm (p : MPInput) (skipQuiets : Bool) :
    ((run_picker p skipQuiets).goodYield).Perm
      ((p.captures.filter fun e => decide (e.move ≠ ttMove p) && seeOk p.see_ge e).map
        (·.move)) := by
  rw [run_picker_goodYield]
  exact (good_capture_loop_spec p.see_ge (ttMove p) p.captures.length p.captures le_rfl).1

theorem bad_captures_perm (p : MPInput) (skipQuiets : Bool) :
    ((run_picker p skipQuiets).badYield).Perm
      ((p.captures.filter fun e => decide (e.move ≠ ttMove p) && !seeOk p.see_ge e).map
        (·.move)) := by
  rw [run_picker_badYield]
  have h2 := (good_capture_loop_spec p.see_ge (ttMove p) p.captures.length p.captures
    le_rfl).2
  have hid : (good_capture_loop p.see_ge (ttMove p) p.captures.length p.captures).2.filter
      (fun m => decide (m ≠ ttMove p))
      = (good_capture_loop p.see_ge (ttMove p) p.captures.length p.captures).2 := by
    rw [List.filter_eq_self]
    intro a ha
    have hmem := h2.mem_iff.mp ha
    rcases List.mem_map.mp hmem with ⟨e, he, rfl⟩
    rcases List.mem_filter.mp he with ⟨_, hpe⟩
    rcases Bool.and_eq_true _ _ |>.mp hpe with ⟨hne, _⟩
    simpa using of_decide_eq_true hne
  rw [hid]
  exact h2

/-- Claim C4 (counterexample): on captureLossInput the lone generated
capture equals the hash move; running the picker to exhaustion yields it in
neither the good-capture nor the bad-capture bucket, so the buckets are not
a partition of the generated captures. -/
theorem capture_partition_counterexample :
    (run_picker captureLossInput false).goodYield = []
    ∧ (run_picker captureLossInput false).badYield = []
    ∧ captureLossInput.captures.map (·.move) = [5]
    ∧ ¬ (((run_picker captureLossInput false).goodYield ++
          (run_picker captureLossInput false).badYield).Perm
        (captureLossInput.captures.map (·.move))) := by
  refine ⟨rfl, rfl, rfl, ?_⟩
  intro h
  exact absurd h.length_eq (by decide)

/-- Claim C4 (amended: the partition holds for every generated capture
other than the hash move; a capture equal to the hash move is yielded by
the hash stage instead and is bucketed nowhere): over a full run of the
main-search picker, the good-capture yields are exactly the non-hash
generated captures passing the static-exchange check against the threshold
-55 * score / 1024, the bad-capture yields are exactly the non-hash
generated captures failing it, and together they are a permutation of the
non-hash generated captures — none lost, none duplicated. -/
theorem capture_partition_amended (p : MPInput) (skipQuiets : Bool) :
    ((run_picker p skipQuiets).goodYield).Perm
      ((p.captures.filter fun e => decide (e.move ≠ ttMove p) && seeOk p.see_ge e).map
        (·.move))
    ∧ ((run_picker p skipQuiets).badYield).Perm
      ((p.captures.filter fun e => decide (e.move ≠ ttMove p) && !seeOk p.see_ge e).map
        (·.move))
    ∧ (((run_picker p skipQuiets).goodYield ++ (run_picker p skipQuiets).badYield).Perm
        ((p.captures.filter fun e => decide (e.move ≠ ttMove p)).map (·.move))) := by
  refine ⟨good_captures_perm p skipQuiets, bad_captures_perm p skipQuiets, ?_⟩
  refine ((good_captures_perm p skipQuiets).append (bad_captures_perm p skipQuiets)).trans ?_
  rw [← List.map_append]
  exact (filter_split_perm _ _ p.captures).map _

end MP

namespace MP

theorem pis_perm (l : List ExtMove) (limit : ℤ) :
    (partial_insertion_sort l limit).Perm l := by
  cases l with
  | nil => rfl
  | cons a rest =>
    exact ((pis_foldl_spec limit rest [a] [] (List.pairwise_singleton _ _)
      (by simp)).2.2).trans (by simp)

theorem run_picker_ttYield (p : MPInput) (s : Bool) :
    (run_picker p s).ttYield = if ttMove p ≠ MOVE_NONE then [ttMove p] else [] := rfl

theorem run_picker_killerYield (p : MPInput) (s : Bool) :
    (run_picker p s).killerYield =
      (if p.killer0 ≠ MOVE_NONE ∧ p.killer0 ≠ ttMove p ∧
          p.pseudo_legal p.killer0 = true ∧ p.capture p.killer0 = false
        then [p.killer0] else [])
      ++ (if p.killer1 ≠ MOVE_NONE ∧ p.killer1 ≠ ttMove p ∧
          p.pseudo_legal p.killer1 = true ∧ p.capture p.killer1 = false
        then [p.killer1] else []) := rfl

theorem run_picker_counterYield (p : MPInput) (s : Bool) :
    (run_picker p s).counterYield =
      if p.countermove ≠ MOVE_NONE ∧ p.countermove ≠ ttMove p ∧
          p.countermove ≠ p.killer0 ∧ p.countermove ≠ p.killer1 ∧
          p.pseudo_legal p.countermove = true ∧ p.capture p.countermove = false
        then [p.countermove] else [] := rfl

theorem run_picker_quietYield (p : MPInput) (s : Bool) :
    (run_picker p s).quietYield =
      if s then []
      else ((partial_insertion_sort p.quiets (-4000 * p.depth)).map (·.move)).filter
        (fun m => decide (m ≠ ttMove p ∧ m ≠ p.killer0 ∧ m ≠ p.killer1 ∧
          m ≠ p.countermove)) := rfl

theorem count_if_single_le (c : Prop) [Decidable c] (a m : Move) :
    ((if c then [a] else []) : List Move).count m ≤ 1 := by
  by_cases h : c
  · rw [if_pos h]
    by_cases hm : m = a
    · subst hm
      simp
    · simp [List.count_singleton, hm]
  · simp [if_neg h]

theorem count_if_single_zero (c : Prop) [Decidable c] (a m : Move)
    (h : m ≠ a ∨ ¬ c) : ((if c then [a] else []) : List Move).count m = 0 := by
  rcases h with h | h
  · by_cases hc : c
    · rw [if_pos hc]
      simp [List.count_singleton, h]
    · simp [if_neg hc]
  · simp [if_neg h]

theorem good_bad_count_le (p : MPInput) (s : Bool) (m : Move) :
    (run_picker p s).goodYield.count m + (run_picker p s).badYield.count m
      ≤ (p.captures.map (·.move)).count m := by
  have hg := (good_captures_perm p s).count_eq m
  have hb := (bad_captures_perm p s).count_eq m
  rw [hg, hb]
  have hsplit := ((filter_split_perm
      (fun e : ExtMove => decide (e.move ≠ ttMove p)) (seeOk p.see_ge)
      p.captures).map (·.move)).count_eq m
  rw [List.map_append, List.count_append] at hsplit
  rw [hsplit]
  refine List.Sublist.count_le ?_ m
  exact (List.filter_sublist p.captures).map _

theorem good_count_tt (p : MPInput) (s : Bool) :
    (run_picker p s).goodYield.count (ttMove p) = 0 := by
  rw [(good_captures_perm p s).count_eq, List.count_eq_zero]
  intro hmem
  rcases List.mem_map.mp hmem with ⟨e, he, heq⟩
  rcases List.mem_filter.mp he with ⟨_, hpe⟩
  rcases Bool.and_eq_true _ _ |>.mp hpe with ⟨hne, _⟩
  exact absurd heq (of_decide_eq_true hne)

theorem bad_count_tt (p : MPInput) (s : Bool) :
    (run_picker p s).badYield.count (ttMove p) = 0 := by
  rw [(bad_captures_perm p s).count_eq, List.count_eq_zero]
  intro hmem
  rcases List.mem_map.mp hmem with ⟨e, he, heq⟩
  rcases List.mem_filter.mp he with ⟨_, hpe⟩
  rcases Bool.and_eq_true _ _ |>.mp hpe with ⟨hne, _⟩
  exact absurd heq (of_decide_eq_true hne)

theorem quiet_special_count_zero (p : MPInput) (s : Bool) (m : Move)
    (h : m = ttMove p ∨ m = p.killer0 ∨ m = p.killer1 ∨ m = p.countermove) :
    (run_picker p s).quietYield.count m = 0 := by
  rw [List.count_eq_zero, run_picker_quietYield]
  intro hmem
  by_cases hs : s
  · rw [if_pos hs] at hmem
    simp at hmem
  · rw [if_neg hs] at hmem
    rcases List.mem_filter.mp hmem with ⟨_, hpe⟩
    rcases of_decide_eq_true hpe with ⟨h1, h2, h3, h4⟩
    rcases h with h | h | h | h
    · exact h1 h
    · exact h2 h
    · exact h3 h
    · exact h4 h

theorem captures_noncapture_count_zero (p : MPInput) (m : Move)
    (hcap : ∀ e ∈ p.captures, p.capture e.move = true)
    (hm : p.capture m = false) : (p.captures.map (·.move)).count m = 0 := by
  rw [List.count_eq_zero]
  intro hmem
  rcases List.mem_map.mp hmem with ⟨e, he, rfl⟩
  rw [hcap e he] at hm
  exact Bool.true_eq_false.mp hm

end MP

namespace MP

/-- Claim C8 (amended: the hash, killer and counter actions are yielded at
most once each provided the two killer slots hold different moves — the
KILLER1 case block never compares killers[1] against killers[0], so a
picker constructed with two equal non-none killers yields that move twice;
see the counterexample): under the external generator's contract (the
capture buffer holds only captures, without duplicate moves; the quiet
buffer holds only non-captures), an action yielded in the quiet stage is
never a capture and never the hash, killer or counter action, and each of
the hash, killer and counter actions appears at most once in the full
yield sequence. -/
theorem stage_filter_soundness_amended (p : MPInput) (s : Bool)
    (hcap : ∀ e ∈ p.captures, p.capture e.move = true)
    (hnd : (p.captures.map (·.move)).Nodup)
    (hq : ∀ e ∈ p.quiets, p.capture e.move = false)
    (hkk : p.killer0 = p.killer1 → p.killer0 = MOVE_NONE) :
    (∀ m ∈ (run_picker p s).quietYield,
        p.capture m = false ∧ m ≠ ttMove p ∧ m ≠ p.killer0 ∧ m ≠ p.killer1 ∧
          m ≠ p.countermove)
    ∧ (∀ m : Move, m ≠ MOVE_NONE →
        (m = ttMove p ∨ m = p.killer0 ∨ m = p.killer1 ∨ m = p.countermove) →
        (trace (run_picker p s)).count m ≤ 1) := by
  constructor
  · intro m hm
    rw [run_picker_quietYield] at hm
    by_cases hs : s
    · rw [if_pos hs] at hm
      simp at hm
    · rw [if_neg hs] at hm
      rcases List.mem_filter.mp hm with ⟨hmem, hpe⟩
      rcases of_decide_eq_true hpe with ⟨h1, h2, h3, h4⟩
      refine ⟨?_, h1, h2, h3, h4⟩
      rcases List.mem_map.mp hmem with ⟨e, he, rfl⟩
      exact hq e ((pis_perm p.quiets (-4000 * p.depth)).mem_iff.mp he)
  · intro m hm0 hmsp
    have hcount : (trace (run_picker p s)).count m =
        (run_picker p s).ttYield.count m + (run_picker p s).goodYield.count m +
        (run_picker p s).killerYield.count m + (run_picker p s).counterYield.count m +
        (run_picker p s).quietYield.count m + (run_picker p s).badYield.count m := by
      simp [trace, List.count_append]
      omega
    rw [hcount]
    have hq5 : (run_picker p s).quietYield.count m = 0 :=
      quiet_special_count_zero p s m hmsp
    by_cases htt : m = ttMove p
    · have h1 : (run_picker p s).ttYield.count m ≤ 1 := by
        rw [run_picker_ttYield]
        exact count_if_single_le _ _ _
      have h2 : (run_picker p s).goodYield.count m = 0 := by
        rw [htt]
        exact good_count_tt p s
      have h6 : (run_picker p s).badYield.count m = 0 := by
        rw [htt]
        exact bad_count_tt p s
      have h3 : (run_picker p s).killerYield.count m = 0 := by
        rw [run_picker_killerYield, List.count_append]
        have e0 : _ = 0 := count_if_single_zero
          (p.killer0 ≠ MOVE_NONE ∧ p.killer0 ≠ ttMove p ∧
            p.pseudo_legal p.killer0 = true ∧ p.capture p.killer0 = false)
          p.killer0 m (by
            by_cases hk : m = p.killer0
            · right
              rw [← hk, ← htt]
              intro hcond
              exact hcond.2.1 rfl
            · left
              exact hk)
        have e1 : _ = 0 := count_if_single_zero
          (p.killer1 ≠ MOVE_NONE ∧ p.killer1 ≠ ttMove p ∧
            p.pseudo_legal p.killer1 = true ∧ p.capture p.killer1 = false)
          p.killer1 m (by
            by_cases hk : m = p.killer1
            · right
              rw [← hk, ← htt]
              intro hcond
              exact hcond.2.1 rfl
            · left
              exact hk)
        rw [e0, e1]
      have h4 : (run_picker p s).counterYield.count m = 0 := by
        rw [run_picker_counterYield]
        refine count_if_single_zero _ _ _ ?_
        by_cases hk : m = p.countermove
        · right
          rw [← hk, ← htt]
          intro hcond
          exact hcond.2.1 rfl
        · left
          exact hk
      omega
    · have h1 : (run_picker p s).ttYield.count m = 0 := by
        rw [run_picker_ttYield]
        exact count_if_single_zero _ _ _ (Or.inl htt)
      by_cases hcm : p.capture m = true
      · have h26 : (run_picker p s).goodYield.count m +
            (run_picker p s).badYield.count m ≤ 1 :=
          le_trans (good_bad_count_le p s m) (List.nodup_iff_count_le_one.mp hnd m)
        have h3 : (run_picker p s).killerYield.count m = 0 := by
          rw [run_picker_killerYield, List.count_append]
          have e0 : _ = 0 := count_if_single_zero
            (p.killer0 ≠ MOVE_NONE ∧ p.killer0 ≠ ttMove p ∧
              p.pseudo_legal p.killer0 = true ∧ p.capture p.killer0 = false)
            p.killer0 m (by
              by_cases hk : m = p.killer0
              · right
                rw [← hk]
                intro hcond
                rw [hcond.2.2.2] at hcm
                exact Bool.false_ne_true hcm
              · left
                exact hk)
          have e1 : _ = 0 := count_if_single_zero
            (p.killer1 ≠ MOVE_NONE ∧ p.killer1 ≠ ttMove p ∧
              p.pseudo_legal p.killer1 = true ∧ p.capture p.killer1 = false)
            p.killer1 m (by
              by_cases hk : m = p.killer1
              · right
                rw [← hk]
                intro hcond
                rw [hcond.2.2.2] at hcm
                exact Bool.false_ne_true hcm
              · left
                exact hk)
          rw [e0, e1]
        have h4 : (run_picker p s).counterYield.count m = 0 := by
          rw [run_picker_counterYield]
          refine count_if_single_zero _ _ _ ?_
          by_cases hk : m = p.countermove
          · right
            rw [← hk]
            intro hcond
            rw [hcond.2.2.2.2.2] at hcm
            exact Bool.false_ne_true hcm
          · left
            exact hk
        omega
      · have hcf : p.capture m = false := Bool.not_eq_true _ |>.mp hcm
        have h26 : (run_picker p s).goodYield.count m +
            (run_picker p s).badYield.count m = 0 := by
          have := le_trans (good_bad_count_le p s m)
            (le_of_eq (captures_noncapture_count_zero p m hcap hcf))
          omega
        by_cases hk0 : m = p.killer0
        · have hk1 : m ≠ p.killer1 := by
            intro hk1
            have : p.killer0 = p.killer1 := by rw [← hk0, ← hk1]
            rw [hkk this] at hk0
            exact hm0 hk0
          have h3 : (run_picker p s).killerYield.count m ≤ 1 := by
            rw [run_picker_killerYield, List.count_append]
            have e1 : _ = 0 := count_if_single_zero
              (p.killer1 ≠ MOVE_NONE ∧ p.killer1 ≠ ttMove p ∧
                p.pseudo_legal p.killer1 = true ∧ p.capture p.killer1 = false)
              p.killer1 m (Or.inl hk1)
            rw [e1]
            have := count_if_single_le
              (p.killer0 ≠ MOVE_NONE ∧ p.killer0 ≠ ttMove p ∧
                p.pseudo_legal p.killer0 = true ∧ p.capture p.killer0 = false)
              p.killer0 m
            omega
          have h4 : (run_picker p s).counterYield.count m = 0 := by
            rw [run_picker_counterYield]
            refine count_if_single_zero _ _ _ ?_
            by_cases hk : m = p.countermove
            · right
              rw [← hk]
              intro hcond
              exact hcond.2.2.1 hk0
            · left
              exact hk
          omega
        · by_cases hk1 : m = p.killer1
          · have h3 : (run_picker p s).killerYield.count m ≤ 1 := by
              rw [run_picker_killerYield, List.count_append]
              have e0 : _ = 0 := count_if_single_zero
                (p.killer0 ≠ MOVE_NONE ∧ p.killer0 ≠ ttMove p ∧
                  p.pseudo_legal p.killer0 = true ∧ p.capture p.killer0 = false)
                p.killer0 m (Or.inl hk0)
              rw [e0]
              have := count_if_single_le
                (p.killer1 ≠ MOVE_NONE ∧ p.killer1 ≠ ttMove p ∧
                  p.pseudo_legal p.killer1 = true ∧ p.capture p.killer1 = false)
                p.killer1 m
              omega
            have h4 : (run_picker p s).counterYield.count m = 0 := by
              rw [run_picker_counterYield]
              refine count_if_single_zero _ _ _ ?_
              by_cases hk : m = p.countermove
              · right
                rw [← hk]
                intro hcond
                exact hcond.2.2.2.1 hk1
              · left
                exact hk
            omega
          · have h3 : (run_picker p s).killerYield.count m = 0 := by
              rw [run_picker_killerYield, List.count_append]
              have e0 : _ = 0 := count_if_single_zero
                (p.killer0 ≠ MOVE_NONE ∧ p.killer0 ≠ ttMove p ∧
                  p.pseudo_legal p.killer0 = true ∧ p.capture p.killer0 = false)
                p.killer0 m (Or.inl hk0)
              have e1 : _ = 0 := count_if_single_zero
                (p.killer1 ≠ MOVE_NONE ∧ p.killer1 ≠ ttMove p ∧
                  p.pseudo_legal p.killer1 = true ∧ p.capture p.killer1 = false)
                p.killer1 m (Or.inl hk1)
              rw [e0, e1]
            have h4 : (run_picker p s).counterYield.count m ≤ 1 := by
              rw [run_picker_counterYield]
              exact count_if_single_le _ _ _
            omega

end MP

namespace MP

/-- Claim C8 (counterexample): with killers[0] = killers[1] = move 5, the
KILLER0 and KILLER1 case blocks both yield move 5 — the KILLER1 filter
checks non-none, hash-distinctness, pseudo-legality and non-capture but
never compares against killers[0] — so the killer action is yielded twice
over the run, refuting the at-most-once part of the claim. -/
theorem killer_duplicate_counterexample :
    killerDupInput.killer0 = killerDupInput.killer1
    ∧ killerDupInput.killer0 ≠ MOVE_NONE
    ∧ (trace (run_picker killerDupInput false)).count 5 = 2 := by
  refine ⟨rfl, by decide, by decide⟩

/-- Claim C8 (witness): the amended theorem applied to stagedOkInput — the
generator contract hypotheses hold there, and the killer action 5 is
yielded at most once over the whole run. -/
theorem stage_filter_soundness_witness :
    ((∀ e ∈ stagedOkInput.captures, stagedOkInput.capture e.move = true)
      ∧ (stagedOkInput.captures.map (·.move)).Nodup
      ∧ (∀ e ∈ stagedOkInput.quiets, stagedOkInput.capture e.move = false)
      ∧ (stagedOkInput.killer0 = stagedOkInput.killer1 →
          stagedOkInput.killer0 = MOVE_NONE))
    ∧ (trace (run_picker stagedOkInput false)).count 5 ≤ 1 :=
  ⟨⟨by decide, by decide, by decide, by decide⟩,
    (stage_filter_soundness_amended stagedOkInput false (by decide) (by decide)
      (by decide) (by decide)).2 5 (by decide) (Or.inr (Or.inl rfl))⟩

end MP

namespace UCT

/-- Claim C9: get_node inspects exactly the slot addressed by the primary
hash; on a full fingerprint match the slot and table are returned
unchanged; otherwise the same slot is re-initialized in place — keys set to
the position's two hashes, visits/sons/expandedSons reset to 0, lastMove
set to MOVE_NONE — with no probing and no chaining: every other slot is
untouched and the previous occupant of the slot is simply overwritten. -/
theorem get_node_contract (M : ℕ) (tbl : ℕ → NodeData) (key1 key2 : ℕ) :
    (((tbl (key1 % M)).key1 = key1 ∧ (tbl (key1 % M)).key2 = key2) →
      get_node M tbl key1 key2 = (tbl (key1 % M), tbl))
    ∧ (¬ ((tbl (key1 % M)).key1 = key1 ∧ (tbl (key1 % M)).key2 = key2) →
      (get_node M tbl key1 key2).1.key1 = key1
      ∧ (get_node M tbl key1 key2).1.key2 = key2
      ∧ (get_node M tbl key1 key2).1.visits = 0
      ∧ (get_node M tbl key1 key2).1.sons = 0
      ∧ (get_node M tbl key1 key2).1.expandedSons = 0
      ∧ (get_node M tbl key1 key2).1.lastMove = MOVE_NONE
      ∧ (get_node M tbl key1 key2).1.edges = (tbl (key1 % M)).edges
      ∧ (get_node M tbl key1 key2).2 (key1 % M) = (get_node M tbl key1 key2).1
      ∧ (∀ j, j ≠ key1 % M → (get_node M tbl key1 key2).2 j = tbl j)) := by
  constructor
  · intro h
    simp only [get_node]
    rw [if_pos h]
  · intro h
    simp only [get_node]
    rw [if_neg h]
    refine ⟨rfl, rfl, rfl, rfl, rfl, rfl, rfl, by simp, ?_⟩
    intro j hj
    simp [hj]

/-- Claim C9 (witness): a concrete mismatching lookup in a table of size 4
with primary hash 6 lands in slot 2, returns a freshly initialized node
there and leaves slot 1 untouched. -/
theorem get_node_contract_witness :
    (¬ ((demoTbl (6 % 4)).key1 = 6 ∧ (demoTbl (6 % 4)).key2 = 9))
    ∧ (get_node 4 demoTbl 6 9).1.key1 = 6
    ∧ (get_node 4 demoTbl 6 9).1.visits = 0
    ∧ (get_node 4 demoTbl 6 9).2 1 = demoTbl 1 := by
  have hmis : ¬ ((demoTbl (6 % 4)).key1 = 6 ∧ (demoTbl (6 % 4)).key2 = 9) := by
    intro h
    exact absurd h.1 (by decide)
  have hc := (get_node_contract 4 demoTbl 6 9).2 hmis
  exact ⟨hmis, hc.1, hc.2.2.1, hc.2.2.2.2.2.2.2.2 1 (by decide)⟩

/-- Claim C10: add_prior_to_node preserves the capacity bound: a call on a
full node (sons = MAX_EDGES) changes nothing — in particular no
out-of-bounds edge write — and otherwise exactly one edge (visits 0, the
given move and prior, zero accumulated and mean action values) is written
at index sons and the sons count grows by exactly one, the other edge slots
and remaining fields untouched. -/
theorem add_prior_capacity (MAX_EDGES : ℕ) (node : NodeData) (m : Move) (prior : ℝ)
    (h : node.sons ≤ MAX_EDGES) :
    (add_prior_to_node MAX_EDGES node m prior).sons ≤ MAX_EDGES
    ∧ (node.sons = MAX_EDGES → add_prior_to_node MAX_EDGES node m prior = node)
    ∧ (node.sons < MAX_EDGES →
        (add_prior_to_node MAX_EDGES node m prior).sons = node.sons + 1
        ∧ (add_prior_to_node MAX_EDGES node m prior).edges node.sons =
            { visits := 0, move := m, prior := prior,
              actionValue := 0, meanActionValue := 0 }
        ∧ (∀ i, i ≠ node.sons →
            (add_prior_to_node MAX_EDGES node m prior).edges i = node.edges i)
        ∧ (add_prior_to_node MAX_EDGES node m prior).visits = node.visits) := by
  refine ⟨?_, ?_, ?_⟩
  · by_cases hlt : node.sons < MAX_EDGES
    · simp only [add_prior_to_node, if_pos hlt]
      omega
    · simp only [add_prior_to_node, if_neg hlt]
      exact h
  · intro he
    have hnlt : ¬ node.sons < MAX_EDGES := by omega
    simp only [add_prior_to_node, if_neg hnlt]
  · intro hlt
    refine ⟨?_, ?_, ?_, ?_⟩
    · simp only [add_prior_to_node, if_pos hlt]
    · simp only [add_prior_to_node, if_pos hlt]
      simp
    · intro i hi
      simp only [add_prior_to_node, if_pos hlt]
      simp [hi]
    · simp only [add_prior_to_node, if_pos hlt]

/-- Claim C10 (witness): appending to a one-son node of capacity 2 keeps
sons within capacity, makes it 2 and writes the new edge at index 1. -/
theorem add_prior_capacity_witness :
    demoNode.sons ≤ 2
    ∧ (add_prior_to_node 2 demoNode 9 (1/2)).sons ≤ 2
    ∧ (add_prior_to_node 2 demoNode 9 (1/2)).sons = 2
    ∧ (add_prior_to_node 2 demoNode 9 (1/2)).edges 1 =
        { visits := 0, move := 9, prior := 1/2,
          actionValue := 0, meanActionValue := 0 } := by
  have hc := add_prior_capacity 2 demoNode 9 (1/2) (by decide)
  have hlt := hc.2.2 (by decide)
  exact ⟨by decide, hc.1, hlt.1, hlt.2.1⟩

theorem calculate_prior_state_id (st : SState) (m : Move) :
    calculate_prior_state st m = st := by
  unfold calculate_prior_state undo_move do_move
  simp

/-- Claim C1 (code_bug demonstration): from the state right after
create_root (ply 1, live position at the root) on a tree whose root is
expanded with one unexpanded child, one full search iteration — selection,
playout, backup — returns with ply = 2 and the live position one move past
the root: tree_policy advanced once and the stub backup retracted nothing,
so the root-restoration invariant asserted by the source
(assert(current_node() == root) at the top of tree_policy and
computational_budget) is violated at the next loop head. -/
theorem root_restoration_violated :
    st0.ply = 1 ∧ st0.path = []
    ∧ (search_iteration demoVisits demoPick demoNodeOf [4, 5] demoTbl 2 st0).1.ply = 2
    ∧ (search_iteration demoVisits demoPick demoNodeOf [4, 5] demoTbl 2 st0).1.path = [7] :=
  ⟨rfl, rfl, rfl, rfl⟩

/-- Claim C2 (code_bug demonstration): backup is an empty stub — for every
search state, node table, node and reward it returns the state and table
unchanged: no edge visit count is incremented, no reward is accumulated
anywhere, no node visit count changes and no ply is retracted; in
particular at a concrete post-playout state (ply 2, one advanced move,
reward 1/2) everything is left exactly as it was. -/
theorem backup_stub_no_propagation :
    (∀ (st : SState) (tbl : ℕ → NodeData) (node : NodeData) (r : ℝ),
      backup st tbl node r = (st, tbl))
    ∧ backup { ply := 2, stackMoves := [7], path := [7] } demoTbl demoNode (1/2)
        = ({ ply := 2, stackMoves := [7], path := [7] }, demoTbl)
    ∧ ((backup { ply := 2, stackMoves := [7], path := [7] } demoTbl demoNode (1/2)).2 0).edges 0
        = demoEdge
    ∧ (backup { ply := 2, stackMoves := [7], path := [7] } demoTbl demoNode (1/2)).1.ply = 2 :=
  ⟨fun _ _ _ _ => rfl, rfl, rfl, rfl⟩

end UCT

namespace UCT

theorem UCB_nonneg (node : NodeData) (e : Edge) (C : ℝ) (hC : 0 ≤ C)
    (hp : 0 ≤ e.prior) (ha : 0 ≤ e.actionValue) : 0 ≤ UCB node e C := by
  unfold UCB
  have h1 : (0:ℝ) ≤ (if e.visits ≠ 0 then e.actionValue / (e.visits : ℝ) else 0) := by
    by_cases h : e.visits ≠ 0
    · rw [if_pos h]
      positivity
    · rw [if_neg h]
  have h2 : (0:ℝ) ≤ C * e.prior * Real.sqrt node.visits / (1 + e.visits) := by
    have hd : (0:ℝ) < 1 + (e.visits : ℝ) := by positivity
    have hs : (0:ℝ) ≤ Real.sqrt node.visits := Real.sqrt_nonneg _
    positivity
  linarith

theorem best_move_loop_const (node : NodeData) (C : ℝ) :
    ∀ (l : List Edge) (b : Move) (v : ℝ), (∀ e ∈ l, UCB node e C ≤ v) →
      best_move_loop node C l b v = b
  | [], _, _, _ => rfl
  | e :: es, b, v, h => by
    rw [best_move_loop, if_neg (not_lt.mpr (h e (List.mem_cons_self e es)))]
    exact best_move_loop_const node C es b v fun e' he' => h e' (List.mem_cons_of_mem e he')

theorem best_move_loop_spec (node : NodeData) (C : ℝ) :
    ∀ (l : List Edge) (b : Move) (v : ℝ), (∃ e ∈ l, v < UCB node e C) →
      ∃ i : Fin l.length,
        best_move_loop node C l b v = (l.get i).move
        ∧ v < UCB node (l.get i) C
        ∧ (∀ j : Fin l.length, UCB node (l.get j) C ≤ UCB node (l.get i) C)
        ∧ (∀ j : Fin l.length, (j : ℕ) < (i : ℕ) →
            UCB node (l.get j) C < UCB node (l.get i) C)
  | [], b, v, h => by simp at h
  | e :: es, b, v, h => by
    rw [best_move_loop]
    by_cases he : v < UCB node e C
    · rw [if_pos he]
      by_cases hbig : ∃ e' ∈ es, UCB node e C < UCB node e' C
      · obtain ⟨i', h1, h2, h3, h4⟩ :=
          best_move_loop_spec node C es e.move (UCB node e C) hbig
        refine ⟨i'.succ, by simpa using h1, lt_trans he h2, ?_, ?_⟩
        · intro j
          induction j using Fin.cases with
          | zero => simpa using le_of_lt h2
          | succ jj => simpa using h3 jj
        · intro j hj
          induction j using Fin.cases with
          | zero => simpa using h2
          | succ jj =>
            have : (jj : ℕ) < (i' : ℕ) := by simpa using hj
            simpa using h4 jj this
      · push_neg at hbig
        rw [best_move_loop_const node C es e.move (UCB node e C)
          fun e' he' => hbig e' he']
        refine ⟨⟨0, by simp⟩, rfl, he, ?_, ?_⟩
        · intro j
          induction j using Fin.cases with
          | zero => simp
          | succ jj =>
            simpa using hbig (es.get jj) (List.get_mem es jj.1 jj.2)
        · intro j hj
          exact absurd hj (Nat.not_lt_zero _)
    · rw [if_neg he]
      have h' : ∃ e' ∈ es, v < UCB node e' C := by
        obtain ⟨e', he', hv⟩ := h
        rcases List.mem_cons.mp he' with rfl | hmem
        · exact absurd hv he
        · exact ⟨e', hmem, hv⟩
      obtain ⟨i', h1, h2, h3, h4⟩ := best_move_loop_spec node C es b v h'
      refine ⟨i'.succ, by simpa using h1, h2, ?_, ?_⟩
      · intro j
        induction j using Fin.cases with
        | zero => simpa using le_of_lt (lt_of_le_of_lt (not_lt.mp he) h2)
        | succ jj => simpa using h3 jj
      · intro j hj
        induction j using Fin.cases with
        | zero => simpa using lt_of_le_of_lt (not_lt.mp he) h2
        | succ jj =>
          have : (jj : ℕ) < (i' : ℕ) := by simpa using hj
          simpa using h4 jj this

/-- Claim C3: for a node with positive parent visit count, a nonnegative
exploration constant and edge statistics in the data model's ranges
(nonnegative priors and accumulated action values), best_move is the
deterministic first-maximum scan of the UCB values over the node's edge
list: it returns the move of an edge whose UCB is maximal, and every edge
strictly before it has strictly smaller UCB — a later edge with an equal
value never replaces an earlier one. -/
theorem best_move_selects_first_ucb_maximizer (node : NodeData) (C : ℝ)
    (_hN : 0 < node.visits) (hC : 0 ≤ C)
    (hne : edges_list node ≠ [])
    (hedges : ∀ e ∈ edges_list node, 0 ≤ e.prior ∧ 0 ≤ e.actionValue) :
    ∃ i : Fin (edges_list node).length,
      best_move node C = ((edges_list node).get i).move
      ∧ (∀ j : Fin (edges_list node).length,
          UCB node ((edges_list node).get j) C ≤ UCB node ((edges_list node).get i) C)
      ∧ (∀ j : Fin (edges_list node).length, (j : ℕ) < (i : ℕ) →
          UCB node ((edges_list node).get j) C < UCB node ((edges_list node).get i) C) := by
  obtain ⟨e0, he0⟩ := List.exists_mem_of_ne_nil _ hne
  have himpr : ∃ e ∈ edges_list node, (-100000000 : ℝ) < UCB node e C :=
    ⟨e0, he0, lt_of_lt_of_le (by norm_num)
      (UCB_nonneg node e0 C hC (hedges e0 he0).1 (hedges e0 he0).2)⟩
  obtain ⟨i, h1, _, h3, h4⟩ :=
    best_move_loop_spec node C (edges_list node) MOVE_NONE (-100000000) himpr
  exact ⟨i, h1, h3, h4⟩

/-- Claim C3 (witness): the theorem applied to ucbDemoNode with exploration
constant 0 (the pure-exploitation setting used for the final root choice). -/
theorem best_move_witness :
    (0 < ucbDemoNode.visits ∧ (0:ℝ) ≤ 0 ∧ edges_list ucbDemoNode ≠ []
      ∧ ∀ e ∈ edges_list ucbDemoNode, 0 ≤ e.prior ∧ 0 ≤ e.actionValue)
    ∧ ∃ i : Fin (edges_list ucbDemoNode).length,
        best_move ucbDemoNode 0 = ((edges_list ucbDemoNode).get i).move
        ∧ (∀ j : Fin (edges_list ucbDemoNode).length,
            UCB ucbDemoNode ((edges_list ucbDemoNode).get j) 0
              ≤ UCB ucbDemoNode ((edges_list ucbDemoNode).get i) 0)
        ∧ (∀ j : Fin (edges_list ucbDemoNode).length, (j : ℕ) < (i : ℕ) →
            UCB ucbDemoNode ((edges_list ucbDemoNode).get j) 0
              < UCB ucbDemoNode ((edges_list ucbDemoNode).get i) 0) := by
  have hl : edges_list ucbDemoNode =
      [{ visits := 1, move := 11, prior := 1/2, actionValue := 1, meanActionValue := 1 },
       { visits := 1, move := 22, prior := 1/2, actionValue := 0, meanActionValue := 0 }] :=
    rfl
  have hne : edges_list ucbDemoNode ≠ [] := by
    rw [hl]
    simp
  have hed : ∀ e ∈ edges_list ucbDemoNode, 0 ≤ e.prior ∧ 0 ≤ e.actionValue := by
    rw [hl]
    intro e he
    rcases List.mem_cons.mp he with rfl | he
    · constructor <;> norm_num
    · rcases List.mem_cons.mp he with rfl | he
      · constructor <;> norm_num
      · simp at he
  exact ⟨⟨by decide, le_refl 0, hne, hed⟩,
    best_move_selects_first_ucb_maximizer ucbDemoNode 0 (by decide) (le_refl 0) hne hed⟩

end UCT

namespace UCT

theorem k_eq : k = -0.00183102048111 := rfl

theorem g_eq : g = 546.14353597715121 := rfl

theorem g_pos : (0:ℝ) < g := by
  rw [g_eq]
  norm_num

theorem gk_close : |g * k + 1| < 1e-9 := by
  rw [g_eq, k_eq, abs_lt]
  constructor <;> norm_num

theorem truncInt_near (x : ℝ) (n : ℤ) (h : |x - (n:ℝ)| < 1/2) :
    |truncInt x - n| ≤ 1 := by
  rcases abs_lt.mp h with ⟨hlo, hhi⟩
  rw [truncInt]
  by_cases hx : (0:ℝ) ≤ x
  · rw [if_pos hx]
    have hlb : n - 1 ≤ ⌊x⌋ := Int.le_floor.mpr (by push_cast; linarith)
    have hub : ⌊x⌋ < n + 1 := by
      have h1 : (⌊x⌋ : ℝ) < (n:ℝ) + 1 := lt_of_le_of_lt (Int.floor_le x) (by linarith)
      exact_mod_cast h1
    rw [abs_le]
    omega
  · rw [if_neg hx]
    have hub : ⌈x⌉ ≤ n + 1 := Int.ceil_le.mpr (by push_cast; linarith)
    have hlb : n - 1 < ⌈x⌉ := by
      have h1 : ((n:ℝ) - 1) < (⌈x⌉ : ℝ) := lt_of_lt_of_le (by linarith) (Int.le_ceil x)
      exact_mod_cast h1
    rw [abs_le]
    omega

theorem exp_le_inv_one_sub (x : ℝ) (_h0 : 0 ≤ x) (h1 : x < 1) :
    Real.exp x ≤ (1 - x)⁻¹ := by
  have h2 : 1 - x ≤ Real.exp (-x) := by
    have := Real.add_one_le_exp (-x)
    linarith
  have h3 : (0:ℝ) < 1 - x := by linarith
  have h5 : (1 - x) * Real.exp x ≤ 1 := by
    calc (1 - x) * Real.exp x ≤ Real.exp (-x) * Real.exp x :=
          mul_le_mul_of_nonneg_right h2 (le_of_lt (Real.exp_pos x))
      _ = 1 := by rw [← Real.exp_add]; simp
  rw [← one_div]
  rw [le_div_iff₀ h3]
  linarith

theorem exp_a_lb : (2.9863 : ℝ) ≤ Real.exp 1.098612288666 := by
  have hsum : (1.098612288666 : ℝ) = 1 + 0.098612288666 := by norm_num
  rw [hsum, Real.exp_add]
  have h1 : (2.7182818283 : ℝ) ≤ Real.exp 1 := le_of_lt Real.exp_one_gt_d9
  have h2 : (1.098612288666 : ℝ) ≤ Real.exp 0.098612288666 := by
    have := Real.add_one_le_exp (0.098612288666 : ℝ)
    linarith
  calc (2.9863 : ℝ) ≤ 2.7182818283 * 1.098612288666 := by norm_num
    _ ≤ Real.exp 1 * Real.exp 0.098612288666 := by
        apply mul_le_mul h1 h2 (by norm_num) (le_of_lt (Real.exp_pos 1))

theorem exp_a_ub : Real.exp 1.098612288666 ≤ (3.0157 : ℝ) := by
  have hsum : (1.098612288666 : ℝ) = 1 + 0.098612288666 := by norm_num
  rw [hsum, Real.exp_add]
  have h1 : Real.exp 1 ≤ (2.7182818286 : ℝ) := le_of_lt Real.exp_one_lt_d9
  have h2 : Real.exp 0.098612288666 ≤ ((1:ℝ) - 0.098612288666)⁻¹ :=
    exp_le_inv_one_sub _ (by norm_num) (by norm_num)
  calc Real.exp 1 * Real.exp 0.098612288666
      ≤ 2.7182818286 * ((1:ℝ) - 0.098612288666)⁻¹ := by
        apply mul_le_mul h1 h2 (le_of_lt (Real.exp_pos _)) (by norm_num)
    _ ≤ (3.0157 : ℝ) := by norm_num

theorem exp_five_gt : (99:ℝ) < Real.exp 5 := by
  have h1 : ((2.7182818283 : ℝ))^(5:ℕ) ≤ (Real.exp 1)^(5:ℕ) :=
    pow_le_pow_left₀ (by norm_num) (le_of_lt Real.exp_one_gt_d9) 5
  have h2 : (Real.exp 1)^(5:ℕ) = Real.exp 5 := by
    rw [← Real.exp_nat_mul]
    norm_num
  calc (99:ℝ) < (2.7182818283 : ℝ)^(5:ℕ) := by norm_num
    _ ≤ (Real.exp 1)^(5:ℕ) := h1
    _ = Real.exp 5 := h2

theorem vtr_zero : value_to_reward 0 = 0.5 := by
  rw [value_to_reward]
  have h0 : k * ((0:ℤ):ℝ) = 0 := by push_cast; ring
  rw [h0, Real.exp_zero]
  norm_num

theorem vtr_600 : |value_to_reward 600 - 0.75| < 0.01 := by
  rw [value_to_reward]
  have hk600 : k * ((600:ℤ):ℝ) = -1.098612288666 := by
    rw [k_eq]
    push_cast
    norm_num
  rw [hk600, Real.exp_neg]
  have hX1 : (2.9863:ℝ) ≤ Real.exp 1.098612288666 := exp_a_lb
  have hX2 : Real.exp 1.098612288666 ≤ (3.0157:ℝ) := exp_a_ub
  have hXpos : (0:ℝ) < Real.exp 1.098612288666 := Real.exp_pos _
  set X := Real.exp 1.098612288666
  have hXp1 : (0:ℝ) < X + 1 := by linarith
  have hone : 1 + X⁻¹ = (X + 1)/X := by
    field_simp
  have hr : 1/(1 + X⁻¹) = X/(X+1) := by
    rw [hone, one_div_div]
  rw [hr, abs_lt]
  constructor
  · have h : (0.74:ℝ) < X/(X+1) := by
      rw [lt_div_iff₀ hXp1]
      linarith
    linarith
  · have h : X/(X+1) < (0.76:ℝ) := by
      rw [div_lt_iff₀ hXp1]
      linarith
    linarith

theorem vtr_neg600 : |value_to_reward (-600) - 0.25| < 0.01 := by
  rw [value_to_reward]
  have hk600 : k * ((-600:ℤ):ℝ) = 1.098612288666 := by
    rw [k_eq]
    push_cast
    norm_num
  rw [hk600]
  have hX1 : (2.9863:ℝ) ≤ Real.exp 1.098612288666 := exp_a_lb
  have hX2 : Real.exp 1.098612288666 ≤ (3.0157:ℝ) := exp_a_ub
  have hXpos : (0:ℝ) < Real.exp 1.098612288666 := Real.exp_pos _
  set X := Real.exp 1.098612288666
  have hXp1 : (0:ℝ) < 1 + X := by linarith
  rw [abs_lt]
  constructor
  · have h : (0.24:ℝ) < 1/(1+X) := by
      rw [lt_div_iff₀ hXp1]
      linarith
    linarith
  · have h : 1/(1+X) < (0.26:ℝ) := by
      rw [div_lt_iff₀ hXp1]
      linarith
    linarith

end UCT

namespace UCT

/-- Claim C6 (counterexample): at r = 3/4 the source's reward_to_value is
nonnegative (about +600, three pawns up), while the claim's formula
(1/k) * ln(r/(1-r)) with k negative is at most -546: the code's constant g
is -1/k, not 1/k as the claim (and the source comment) states, so the two
sides differ. -/
theorem reward_to_value_sign_counterexample :
    0 ≤ reward_to_value (3/4)
    ∧ reward_to_value_claimed (3/4) ≤ -546
    ∧ reward_to_value (3/4) ≠ reward_to_value_claimed (3/4) := by
  have hb1 : ¬ ((0.99:ℝ) < 3/4) := by norm_num
  have hb2 : ¬ ((3/4:ℝ) < 0.01) := by norm_num
  have hq : (3/4 : ℝ) / (1 - 3/4) = 3 := by norm_num
  have hlog3 : (1:ℝ) ≤ Real.log 3 := by
    rw [Real.le_log_iff_exp_le (by norm_num)]
    calc Real.exp 1 ≤ 2.7182818286 := le_of_lt Real.exp_one_lt_d9
      _ ≤ 3 := by norm_num
  have hpos : 0 ≤ reward_to_value (3/4) := by
    rw [reward_to_value, if_neg hb1, if_neg hb2, hq]
    have hlg : (0:ℝ) ≤ g * Real.log 3 := mul_nonneg (le_of_lt g_pos) (by linarith)
    rw [truncInt, if_pos hlg]
    exact Int.le_floor.mpr (by push_cast; linarith)
  have hneg : reward_to_value_claimed (3/4) ≤ -546 := by
    rw [reward_to_value_claimed, if_neg hb1, if_neg hb2, hq]
    have hk1 : (1:ℝ)/k ≤ -546 := by
      rw [k_eq]
      norm_num
    have hx : (1/k) * Real.log 3 ≤ -546 := by
      calc (1/k) * Real.log 3 ≤ (1/k) * 1 :=
            mul_le_mul_of_nonpos_left hlog3 (by linarith)
        _ = 1/k := mul_one _
        _ ≤ -546 := hk1
    have hxneg : ¬ ((0:ℝ) ≤ (1/k) * Real.log 3) := not_le.mpr (by linarith)
    rw [truncInt, if_neg hxneg]
    exact Int.ceil_le.mpr (by push_cast; linarith)
  refine ⟨hpos, hneg, ?_⟩
  intro heq
  omega

/-- Claim C6 (amended: the formula's coefficient corrected from 1/k to
g = 546.14353597715121 = -1/k up to rounding error below 1e-9): for every
reward r in [0.01, 0.99] reward_to_value returns the integer truncation of
g * ln(r/(1-r)); for r above 0.99 it returns the known-win sentinel and for
r below 0.01 the known-loss sentinel without evaluating the logarithm. -/
theorem reward_to_value_amended (r : ℝ) (h1 : 0.01 ≤ r) (h2 : r ≤ 0.99) :
    reward_to_value r = truncInt (g * Real.log (r / (1 - r)))
    ∧ (∀ s : ℝ, 0.99 < s → reward_to_value s = VALUE_KNOWN_WIN)
    ∧ (∀ s : ℝ, s < 0.01 → reward_to_value s = -VALUE_KNOWN_WIN)
    ∧ |g * k + 1| < 1e-9 := by
  refine ⟨?_, ?_, ?_, gk_close⟩
  · rw [reward_to_value, if_neg (not_lt.mpr h2), if_neg (not_lt.mpr h1)]
  · intro s hs
    rw [reward_to_value, if_pos hs]
  · intro s hs
    rw [reward_to_value, if_neg (by linarith), if_pos hs]

/-- Claim C6 (witness): the amended theorem applied at r = 1/2, where the
log vanishes and the returned value is 0. -/
theorem reward_to_value_amended_witness :
    ((0.01:ℝ) ≤ 1/2 ∧ (1/2:ℝ) ≤ 0.99) ∧ reward_to_value (1/2) = 0 := by
  refine ⟨⟨by norm_num, by norm_num⟩, ?_⟩
  have h := (reward_to_value_amended (1/2) (by norm_num) (by norm_num)).1
  rw [h]
  have hq : (1/2 : ℝ) / (1 - 1/2) = 1 := by norm_num
  rw [hq, Real.log_one, mul_zero, truncInt, if_pos (le_refl (0:ℝ)), Int.floor_zero]

/-- Claim C7: value_to_reward and reward_to_value are approximate inverses
away from the clamped extremes — for every integer value v whose reward
lies in [0.01, 0.99], mapping to a reward and back lands within one unit of
v (the rounding tolerance of the int cast); and the calibration scenarios
hold: value_to_reward 600 is within 0.01 of 0.75, value_to_reward (-600)
within 0.01 of 0.25, and value_to_reward 0 is exactly 0.5. -/
theorem value_reward_approx_inverse (v : ℤ)
    (h1 : 0.01 ≤ value_to_reward v) (h2 : value_to_reward v ≤ 0.99) :
    |reward_to_value (value_to_reward v) - v| ≤ 1
    ∧ |value_to_reward 600 - 0.75| < 0.01
    ∧ |value_to_reward (-600) - 0.25| < 0.01
    ∧ value_to_reward 0 = 0.5 := by
  refine ⟨?_, vtr_600, vtr_neg600, vtr_zero⟩
  have hEpos : (0:ℝ) < Real.exp (k * v) := Real.exp_pos _
  set E := Real.exp (k * v) with hE
  have hden : (0:ℝ) < 1 + E := by linarith
  have hvtr : value_to_reward v = 1 / (1 + E) := rfl
  rw [reward_to_value, if_neg (not_lt.mpr h2), if_neg (not_lt.mpr h1)]
  have hr1 : (1 : ℝ) - 1 / (1 + E) = E / (1 + E) := by
    field_simp
  have hE0 : E ≠ 0 := ne_of_gt hEpos
  have hd0 : (1:ℝ) + E ≠ 0 := ne_of_gt hden
  have hr2 : value_to_reward v / (1 - value_to_reward v) = E⁻¹ := by
    rw [hvtr, hr1]
    rw [div_div_div_cancel_right₀ hd0]
    exact one_div E
  have hlog : Real.log (value_to_reward v / (1 - value_to_reward v)) = -(k * v) := by
    rw [hr2, hE, ← Real.exp_neg, Real.log_exp]
  rw [hlog]
  have hE99 : E ≤ 99 := by
    rw [hvtr] at h1
    have h1' : (1:ℝ)/100 ≤ 1/(1 + E) := by linarith
    have := (div_le_div_iff₀ (by norm_num) hden).mp h1'
    linarith
  have hE99' : (1:ℝ)/99 ≤ E := by
    rw [hvtr] at h2
    have h2' : (1:ℝ)/(1 + E) ≤ 99/100 := by linarith
    have := (div_le_div_iff₀ hden (by norm_num)).mp h2'
    linarith
  have hkv5 : k * v < 5 := by
    apply Real.exp_lt_exp.mp
    rw [← hE]
    exact lt_of_le_of_lt hE99 exp_five_gt
  have hkv5' : -5 < k * v := by
    apply Real.exp_lt_exp.mp
    rw [← hE]
    have hlt : Real.exp (-5) < 1/99 := by
      rw [Real.exp_neg, ← one_div]
      exact one_div_lt_one_div_of_lt (by norm_num) exp_five_gt
    exact lt_of_lt_of_le hlt hE99'
  have hvb : |(v:ℝ)| < 2731 := by
    rw [k_eq] at hkv5 hkv5'
    rw [abs_lt]
    constructor <;> linarith
  have habs : |g * -(k * v) - (v:ℝ)| < 1/2 := by
    have hre : g * -(k * (v:ℝ)) - v = -(g * k + 1) * v := by ring
    rw [hre, abs_mul, abs_neg]
    have hbig : |g * k + 1| * |(v:ℝ)| < 1e-9 * 2731 := by
      rcases eq_or_lt_of_le (abs_nonneg ((v:ℝ))) with hz | hz
      · rw [← hz, mul_zero]
        norm_num
      · exact mul_lt_mul'' gk_close hvb (abs_nonneg _) (abs_nonneg _)
    calc |g * k + 1| * |(v:ℝ)| < 1e-9 * 2731 := hbig
      _ < 1/2 := by norm_num
  exact truncInt_near _ v habs

/-- Claim C7 (witness): the inverse theorem applied at v = 0, whose reward
1/2 lies inside [0.01, 0.99]; the round trip lands within one unit of 0. -/
theorem value_reward_approx_inverse_witness :
    ((0.01:ℝ) ≤ value_to_reward 0 ∧ value_to_reward 0 ≤ 0.99)
    ∧ |reward_to_value (value_to_reward 0) - 0| ≤ 1 := by
  have h1 : (0.01:ℝ) ≤ value_to_reward 0 := by
    rw [vtr_zero]
    norm_num
  have h2 : value_to_reward 0 ≤ 0.99 := by
    rw [vtr_zero]
    norm_num
  exact ⟨⟨h1, h2⟩, (value_reward_approx_inverse 0 h1 h2).1⟩

end UCT
